import Mathlib

/-!
Verification of the Kaleidoscope front end (lexer and recursive-descent
parser with operator-precedence climbing) from `src/main.cpp`.

The C++ code reads characters from stdin one at a time, holding a single
lookahead character in the static variable `LastChar` (initially `' '`).
We model the character source as a `List Char` together with the lookahead
as an `Option Char` (`none` models EOF).  `std::getchar` becomes "pop the
head of the list, or `none` at the end".  The lexer's recursion through a
`#` comment restarts `gettok`; since that recursion always strictly
consumes input, we give `gettok` a structural fuel parameter and prove
that any fuel larger than the input length yields the fuel-free behaviour.

The parser's mutual recursion (expression -> primary -> paren/call ->
expression) is tied with an explicit function parameter `pe` (the
expression parser one nesting level down) plus a fuel counter in
`ParseExpression`, keeping every definition structurally recursive so
that concrete runs reduce definitionally.  The number payload of a token
is the literal text handed to `std::stod` (the parser never inspects it).
-/

namespace Kaleidoscope

/-- ASCII / C-locale `isspace` (space, \t, \n, \v, \f, \r), as used by the
lexer via `<cctype>`. -/
def isspace (c : Char) : Bool := c.toNat = 32 || (9 ≤ c.toNat && c.toNat ≤ 13)

/-- ASCII / C-locale `isalpha`. -/
def isalpha (c : Char) : Bool :=
  (65 ≤ c.toNat && c.toNat ≤ 90) || (97 ≤ c.toNat && c.toNat ≤ 122)

/-- ASCII / C-locale `isdigit`. -/
def isdigit (c : Char) : Bool := 48 ≤ c.toNat && c.toNat ≤ 57

/-- ASCII / C-locale `isalnum`. -/
def isalnum (c : Char) : Bool := isalpha c || isdigit c

/-- C `isascii`: character codes 0..127. -/
def isascii (c : Char) : Bool := c.toNat ≤ 127

/-- Tokens returned by `gettok` (`enum Token`, main.cpp:13-23).  The C++
lexer returns the negative enum values or a plain character code; we use a
sum type.  `tok_identifier` carries `IdentifierStr`; `tok_number` carries
the literal text `NumStr` that C++ passes to `std::stod` (the claims under
verification never depend on the floating-point value, only on the text).
`tok_externKw` is `tok_extern` in the source. -/
inductive Token where
  | tok_eof
  | tok_def
  | tok_externKw
  | tok_identifier (s : String)
  | tok_number (numStr : String)
  | tok_char (c : Char)
deriving DecidableEq

/-- View a character list as a lexer state: lookahead character plus
remaining input (empty list = EOF reached). -/
def stateOf : List Char → Option Char × List Char
  | [] => (none, [])
  | c :: cs => (some c, cs)

/-- Tail of the whitespace-skipping loop (main.cpp:32-34) once the current
lookahead was whitespace: keep reading characters while they are spaces. -/
def skipSpacesAux : List Char → Option Char × List Char
  | [] => (none, [])
  | d :: rest => if isspace d then skipSpacesAux rest else (some d, rest)

/-- The loop `while(isspace(LastChar)) LastChar = getchar();`
(main.cpp:32-34), starting from lookahead `lc` and input `inp`. -/
def skipSpaces (lc : Option Char) (inp : List Char) : Option Char × List Char :=
  match lc with
  | none => (none, inp)
  | some c => if isspace c then skipSpacesAux inp else (some c, inp)

/-- The identifier loop `while (isalnum((LastChar = getchar())))
IdentifierStr += LastChar;` (main.cpp:38-40): extend `acc` while the next
character is alphanumeric; the terminating character (if any) becomes the
new lookahead. -/
def readIdent (acc : String) : List Char → String × Option Char × List Char
  | [] => (acc, none, [])
  | d :: rest => if isalnum d then readIdent (acc.push d) rest else (acc, some d, rest)

/-- The tail of the number do-while loop (main.cpp:52-55): after the first
character was already appended, keep appending digits and dots. -/
def readNumLoop (acc : String) : List Char → String × Option Char × List Char
  | [] => (acc, none, [])
  | d :: rest =>
    if isdigit d || d = '.' then readNumLoop (acc.push d) rest else (acc, some d, rest)

/-- The comment loop `do LastChar = getchar(); while(LastChar != EOF &&
LastChar != '\n' && LastChar != '\r');` (main.cpp:61-63). -/
def skipComment : List Char → Option Char × List Char
  | [] => (none, [])
  | d :: rest => if d = '\n' || d = '\r' then (some d, rest) else skipComment rest

/-- Body of `gettok` (main.cpp:36-74) after whitespace skipping, i.e. the
classification of the current lookahead.  `go` is the recursive restart
used after a newline-terminated comment (`return gettok();`,
main.cpp:65). -/
def gettokBody (go : Option Char → List Char → Token × Option Char × List Char) :
    Option Char × List Char → Token × Option Char × List Char
  | (none, inp) => (Token.tok_eof, none, inp)
  | (some c, inp) =>
    if isalpha c then
      match readIdent (String.mk [c]) inp with
      | (idStr, lc, inp2) =>
        if idStr = "def" then (Token.tok_def, lc, inp2)
        else if idStr = "extern" then (Token.tok_externKw, lc, inp2)
        else (Token.tok_identifier idStr, lc, inp2)
    else if isdigit c || c = '.' then
      match readNumLoop (String.mk [c]) inp with
      | (numStr, lc, inp2) => (Token.tok_number numStr, lc, inp2)
    else if c = '#' then
      match skipComment inp with
      | (some c2, inp2) => go (some c2) inp2
      | (none, inp2) => (Token.tok_eof, none, inp2)
    else
      match inp with
      | [] => (Token.tok_char c, none, [])
      | d :: rest => (Token.tok_char c, some d, rest)

/-- Function `gettok` (main.cpp:29-75): skip whitespace, then classify.  The fuel
argument only bounds the self-recursion through comments, which strictly
consumes input, so any `fuel > inp.length` gives the true result
(`gettok_fuel_irrel` below); fuel 0 is never reached then. -/
def gettok : Nat → Option Char → List Char → Token × Option Char × List Char
  | 0, lc, inp => (Token.tok_eof, lc, inp)
  | fuel+1, lc, inp => gettokBody (gettok fuel) (skipSpaces lc inp)

/-- Repeatedly call `gettok` (with always-sufficient inner fuel) and
collect the tokens before `tok_eof`, the way the driver loop pulls tokens.
The outer fuel bounds the number of tokens produced. -/
def tokenize : Nat → Option Char → List Char → List Token
  | 0, _, _ => []
  | fuel+1, lc, inp =>
    match gettok (inp.length + 1) lc inp with
    | (Token.tok_eof, _, _) => []
    | (t, lc2, inp2) => t :: tokenize fuel lc2 inp2

/-- Lex a whole string from the lexer's initial state (`LastChar = ' '`,
main.cpp:30). -/
def lexString (str : String) : List Token := tokenize (str.length + 1) (some ' ') str.data

/-- Separator scanner: `sepScan false l` holds when `l` consists only of
whitespace and `#`-comments each terminated by `'\n'` or `'\r'`; the flag
tracks being inside a comment. -/
def sepScan : Bool → List Char → Bool
  | false, [] => true
  | false, c :: rest =>
    if isspace c then sepScan false rest
    else if c = '#' then sepScan true rest
    else false
  | true, [] => false
  | true, c :: rest =>
    if c = '\n' || c = '\r' then sepScan false rest else sepScan true rest

/-- A complete separator chunk: whitespace and newline-terminated
comments. -/
def SepChunk (l : List Char) : Bool := sepScan false l

/-- Like `sepScan`, but a comment may run to the end of input (legal at
the very end of the stream, where the lexer then reports EOF). -/
def finalScan : Bool → List Char → Bool
  | _, [] => true
  | false, c :: rest =>
    if isspace c then finalScan false rest
    else if c = '#' then finalScan true rest
    else false
  | true, c :: rest =>
    if c = '\n' || c = '\r' then finalScan false rest else finalScan true rest

/-- A trailing separator: whitespace and comments, the last comment
possibly unterminated. -/
def FinalSep (l : List Char) : Bool := finalScan false l

/-- The exact character text a token was lexed from. -/
def tokenText : Token → List Char
  | Token.tok_eof => []
  | Token.tok_def => ['d', 'e', 'f']
  | Token.tok_externKw => ['e', 'x', 't', 'e', 'r', 'n']
  | Token.tok_identifier s => s.data
  | Token.tok_number s => s.data
  | Token.tok_char c => [c]

/-- Which tokens the lexer can actually produce from source text, with a
well-formed payload: identifiers are a letter followed by alphanumerics
and are not a keyword; numbers are a nonempty run of digits and dots;
character tokens are single characters that no other lexer rule claims. -/
def tokenOK : Token → Bool
  | Token.tok_eof => false
  | Token.tok_def => true
  | Token.tok_externKw => true
  | Token.tok_identifier s =>
    (match s.data with
     | [] => false
     | c :: cs => isalpha c && cs.all isalnum) && !(s = "def") && !(s = "extern")
  | Token.tok_number s =>
    (match s.data with
     | [] => false
     | c :: cs => (isdigit c || c = '.') && cs.all (fun d => isdigit d || d = '.'))
  | Token.tok_char c =>
    !(isalpha c) && !(isdigit c) && !(c = '.') && !(isspace c) && !(c = '#')

/-- Whether the gap between consecutive tokens must be nonempty: an
alphanumeric run (keyword/identifier) followed by text starting with an
alphanumeric, or a number followed by text starting with a digit or dot,
would otherwise merge into a single token. -/
def needSep (t t2 : Token) : Bool :=
  match t with
  | Token.tok_def | Token.tok_externKw | Token.tok_identifier _ =>
    (match tokenText t2 with
     | c :: _ => isalnum c
     | [] => false)
  | Token.tok_number _ =>
    (match tokenText t2 with
     | c :: _ => isdigit c || c = '.'
     | [] => false)
  | _ => false

/-- Flatten a list of (token, following gap) pairs back into character
text. -/
def renderItems : List (Token × List Char) → List Char
  | [] => []
  | (t, g) :: rest => tokenText t ++ (g ++ renderItems rest)

/-- A valid rendering: every token is producible, every gap between two
tokens is a complete separator chunk (nonempty where the adjacent token
texts would otherwise merge), and the trailing gap is a trailing
separator. -/
def validItems : List (Token × List Char) → Bool
  | [] => true
  | (t, g) :: rest =>
    tokenOK t &&
    (match rest with
     | [] => FinalSep g
     | (t2, _) :: _ => SepChunk g && (!(needSep t t2) || !(g = [])) && validItems rest)

/-- Function `gettok` applied at the lexer state viewing `l` as lookahead plus remaining
input, with fuel that always suffices (one beyond the remaining-input
length; the lexer's only self-recursion, through comments, strictly
consumes input).  This is exactly the call `tokenize` makes. -/
def gettokAt (l : List Char) : Token × Option Char × List Char :=
  gettok ((stateOf l).2.length + 1) (stateOf l).1 (stateOf l).2

/-- The text does not start with an alphanumeric character (so it cannot
extend an identifier/keyword run). -/
def notAlnumHead : List Char → Bool
  | [] => true
  | c :: _ => !(isalnum c)

/-- The text does not start with a digit or dot (so it cannot extend a
number run). -/
def notNumHead : List Char → Bool
  | [] => true
  | c :: _ => !(isdigit c || c = '.')

/-- The text following a token's own text does not extend the token's
maximal-munch run. -/
def headSeparates (t : Token) (after : List Char) : Bool :=
  match t with
  | Token.tok_def | Token.tok_externKw | Token.tok_identifier _ => notAlnumHead after
  | Token.tok_number _ => notNumHead after
  | _ => true

/-- AST node for expressions (`ExprAST` and subclasses, main.cpp:80-117),
as a closed sum: number literal (stored as its source text), variable
reference, binary operation, call. -/
inductive ExprAST where
  | Number (val : String)
  | Variable (name : String)
  | Binary (op : Char) (lhs rhs : ExprAST)
  | Call (callee : String) (args : List ExprAST)

/-- Class `PrototypeAST` (main.cpp:122-131): function name and parameter
names. -/
structure PrototypeAST where
  name : String
  args : List String

/-- Class `FunctionAST` (main.cpp:134-141): prototype plus body. -/
structure FunctionAST where
  proto : PrototypeAST
  body : ExprAST

/-- The diagnostic strings passed to `LogError`/`LogErrorP`; one per
distinct parse failure in main.cpp. -/
inductive ParseErr where
  /-- C string: "unknown token when expecting an expression" (main.cpp:237) -/
  | unknownTokenExpectingExpr
  /-- C string: "expected ')'" (main.cpp:182) -/
  | expectedRParen
  /-- C string: "Expected ')' or ',' in argument list" (main.cpp:217) -/
  | expectedRParenOrCommaInArgs
  /-- C string: "Expected function name in prototype" (main.cpp:322) -/
  | expectedFnNameInProto
  /-- C string: "Expected '(' in prototype" (main.cpp:329) -/
  | expectedLParenInProto
  /-- C string: "Expected ')' in prototype" (main.cpp:338) -/
  | expectedRParenInProto
deriving DecidableEq

/-- Parser state: the one-token buffer `CurTok` (main.cpp:152) plus the
tokens not yet pulled from the lexer. -/
structure PState where
  cur : Token
  rest : List Token
deriving DecidableEq

/-- Result of a parse routine: a node plus the state after it
(`return <node>`), a propagated failure (`return nullptr` after
`LogError(msg)`), or fuel exhaustion (a model artifact that provably
never occurs with fuel above the token count, see the termination
theorem). -/
inductive ParseResult (α : Type) where
  | ok (a : α) (s : PState)
  | err (e : ParseErr)
  | out

/-- Function `getNextToken` (main.cpp:153-155): pull the next token into `CurTok`.
Past the end of the stream the lexer keeps returning `tok_eof`. -/
def advance : PState → PState
  | ⟨_, []⟩ => ⟨Token.tok_eof, []⟩
  | ⟨_, t :: ts⟩ => ⟨t, ts⟩

/-- Parser start state over a token list: the driver primes `CurTok` with
one `getNextToken()` call (main.cpp:437). -/
def initState (ts : List Token) : PState := advance ⟨Token.tok_eof, ts⟩

/-- One for any token other than end-of-input, zero for end-of-input. -/
def tokWeight : Token → Nat
  | Token.tok_eof => 0
  | _ => 1

/-- Number of tokens still to be consumed (the current non-EOF token
counts as one). -/
def countTokens (s : PState) : Nat := s.rest.length + tokWeight s.cur

/-- Key lookup in an association list, modelling `std::map` search. -/
def mapFind : List (Char × Int) → Char → Option Int
  | [], _ => none
  | (k, v) :: rest, c => if k = c then some v else mapFind rest c

/-- Initial contents of `BinopPrecedence` (main.cpp:249-251). -/
def BinopPrecedence : List (Char × Int) := [('<', 10), ('+', 20), ('-', 20), ('*', 40), ('/', 40)]

/-- The map subscript operation of `std::map` (used at main.cpp:260): return the mapped
value, default-inserting a value-initialized `0` for an absent key. -/
def mapIndex (m : List (Char × Int)) (c : Char) : Int × List (Char × Int) :=
  match mapFind m c with
  | some v => (v, m)
  | none => (0, m ++ [(c, 0)])

/-- Function `GetTokPrecedence` (main.cpp:254-263) with the map state made
explicit: non-ASCII token codes (all the negative enumerators) give -1;
otherwise look the character up with `operator[]` and map values `<= 0`
to -1. -/
def GetTokPrecedenceST (t : Token) (m : List (Char × Int)) : Int × List (Char × Int) :=
  match t with
  | Token.tok_char c =>
    if isascii c then
      match mapIndex m c with
      | (v, m2) => (if v ≤ 0 then -1 else v, m2)
    else (-1, m)
  | _ => (-1, m)

/-- The value `GetTokPrecedence` returns.  By the frame theorem for the
precedence map (claim C10) this is the same in every call sequence, so
the parser below uses this pure form. -/
def GetTokPrecedence (t : Token) : Int := (GetTokPrecedenceST t BinopPrecedence).1

/-- Thread a sequence of `GetTokPrecedence` calls through the map
state. -/
def runLookups : List Token → List (Char × Int) → List (Char × Int)
  | [], m => m
  | t :: ts, m => runLookups ts (GetTokPrecedenceST t m).2

/-- The observable content of the map at a key under `operator[]`:
the stored value, or the `0` that would be default-inserted. -/
def lookupDef (m : List (Char × Int)) (c : Char) : Int := (mapFind m c).getD 0

/-- The global `NumVal` as a function of the current token (valid when a
number token is current, which is the only time `ParseNumberExpr`
runs). -/
def numValOf : Token → String
  | Token.tok_number v => v
  | _ => ""

/-- Function `ParseNumberExpr` (main.cpp:168-172): build a number node from
`NumVal` and consume the token.  It never fails. -/
def ParseNumberExpr (s : PState) : ParseResult ExprAST :=
  ParseResult.ok (ExprAST.Number (numValOf s.cur)) (advance s)

/-- Function `ParseParenExpr` (main.cpp:175-186).  `pe` is `ParseExpression` one
fuel step down (the two are mutually recursive in the source). -/
def ParseParenExpr (pe : PState → ParseResult ExprAST) (s : PState) : ParseResult ExprAST :=
  match pe (advance s) with
  | ParseResult.ok v s2 =>
    match s2.cur with
    | Token.tok_char ')' => ParseResult.ok v (advance s2)
    | _ => ParseResult.err ParseErr.expectedRParen
  | ParseResult.err m => ParseResult.err m
  | ParseResult.out => ParseResult.out

/-- The argument-collecting `while(1)` loop of `ParseIdentifierExpr`
(main.cpp:204-220): parse an expression, stop at `')'`, continue past
`','`, anything else is the argument-list error.  The fuel bounds loop
iterations; each iteration consumes at least the parsed argument. -/
def ParseArgsLoop (pe : PState → ParseResult ExprAST) :
    Nat → List ExprAST → PState → ParseResult (List ExprAST)
  | 0, _, _ => ParseResult.out
  | g+1, acc, s =>
    match pe s with
    | ParseResult.ok arg s1 =>
      match s1.cur with
      | Token.tok_char ')' => ParseResult.ok (acc ++ [arg]) s1
      | Token.tok_char ',' => ParseArgsLoop pe g (acc ++ [arg]) (advance s1)
      | _ => ParseResult.err ParseErr.expectedRParenOrCommaInArgs
    | ParseResult.err m => ParseResult.err m
    | ParseResult.out => ParseResult.out

/-- Function `ParseIdentifierExpr` (main.cpp:191-227): a variable reference, or a
call when a `'('` follows the identifier. -/
def ParseIdentifierExpr (pe : PState → ParseResult ExprAST) (g : Nat) (s : PState) :
    ParseResult ExprAST :=
  match s.cur with
  | Token.tok_identifier idName =>
    let s1 := advance s
    match s1.cur with
    | Token.tok_char '(' =>
      let s2 := advance s1
      match s2.cur with
      | Token.tok_char ')' => ParseResult.ok (ExprAST.Call idName []) (advance s2)
      | _ =>
        match ParseArgsLoop pe g [] s2 with
        | ParseResult.ok args s3 => ParseResult.ok (ExprAST.Call idName args) (advance s3)
        | ParseResult.err m => ParseResult.err m
        | ParseResult.out => ParseResult.out
    | _ => ParseResult.ok (ExprAST.Variable idName) s1
  | _ => ParseResult.err ParseErr.unknownTokenExpectingExpr

/-- Function `ParsePrimary` (main.cpp:234-245): dispatch on the current token. -/
def ParsePrimary (pe : PState → ParseResult ExprAST) (g : Nat) (s : PState) :
    ParseResult ExprAST :=
  match s.cur with
  | Token.tok_identifier _ => ParseIdentifierExpr pe g s
  | Token.tok_number _ => ParseNumberExpr s
  | Token.tok_char '(' => ParseParenExpr pe s
  | _ => ParseResult.err ParseErr.unknownTokenExpectingExpr

/-- Function `ParseBinOpRHS` (main.cpp:278-316): precedence climbing.  `pp` is
`ParsePrimary` with the expression parser tied in; the fuel bounds loop
iterations and the recursive absorption, each of which consumes at least
two tokens.  The final wildcard arm is unreachable for the nonnegative
`exprPrec` the parser uses, since a non-`tok_char` token has precedence
-1 and is caught by `tokPrec < exprPrec`. -/
def ParseBinOpRHS (pp : PState → ParseResult ExprAST) :
    Nat → Int → ExprAST → PState → ParseResult ExprAST
  | 0, _, _, _ => ParseResult.out
  | g+1, exprPrec, lhs, s =>
    let tokPrec := GetTokPrecedence s.cur
    if tokPrec < exprPrec then ParseResult.ok lhs s
    else
      match s.cur with
      | Token.tok_char binOp =>
        match pp (advance s) with
        | ParseResult.ok rhs s2 =>
          let nextPrec := GetTokPrecedence s2.cur
          if tokPrec < nextPrec then
            match ParseBinOpRHS pp g (tokPrec + 1) rhs s2 with
            | ParseResult.ok rhs2 s3 =>
              ParseBinOpRHS pp g exprPrec (ExprAST.Binary binOp lhs rhs2) s3
            | ParseResult.err m => ParseResult.err m
            | ParseResult.out => ParseResult.out
          else ParseBinOpRHS pp g exprPrec (ExprAST.Binary binOp lhs rhs) s2
        | ParseResult.err m => ParseResult.err m
        | ParseResult.out => ParseResult.out
      | _ => ParseResult.ok lhs s

/-- Function `ParseExpression` (main.cpp:268-274): one primary, then the binary
operator suffix starting at minimum precedence 0. -/
def ParseExpression : Nat → PState → ParseResult ExprAST
  | 0, _ => ParseResult.out
  | f+1, s =>
    match ParsePrimary (ParseExpression f) f s with
    | ParseResult.ok lhs s1 => ParseBinOpRHS (ParsePrimary (ParseExpression f) f) (f+1) 0 lhs s1
    | ParseResult.err m => ParseResult.err m
    | ParseResult.out => ParseResult.out

/-- The parameter-name loop of `ParsePrototype`
(`while (getNextToken() == tok_identifier) ...`, main.cpp:334-336),
acting on the tokens that follow the current one: collect identifiers,
stop at the first non-identifier, which becomes the current token. -/
def protoArgsLoop : List Token → List String × PState
  | [] => ([], ⟨Token.tok_eof, []⟩)
  | t :: ts =>
    match t with
    | Token.tok_identifier id =>
      match protoArgsLoop ts with
      | (args, s) => (id :: args, s)
    | _ => ([], ⟨t, ts⟩)

/-- Function `ParsePrototype` (main.cpp:320-345): name, `'('`, parameter names,
`')'`. -/
def ParsePrototype (s : PState) : ParseResult PrototypeAST :=
  match s.cur with
  | Token.tok_identifier fnName =>
    let s1 := advance s
    match s1.cur with
    | Token.tok_char '(' =>
      match protoArgsLoop s1.rest with
      | (argNames, s2) =>
        match s2.cur with
        | Token.tok_char ')' => ParseResult.ok ⟨fnName, argNames⟩ (advance s2)
        | _ => ParseResult.err ParseErr.expectedRParenInProto
    | _ => ParseResult.err ParseErr.expectedLParenInProto
  | _ => ParseResult.err ParseErr.expectedFnNameInProto

/-- Function `ParseDefinition` (main.cpp:348-357): eat `def`, parse a prototype,
parse the body expression. -/
def ParseDefinition (f : Nat) (s : PState) : ParseResult FunctionAST :=
  match ParsePrototype (advance s) with
  | ParseResult.ok proto s2 =>
    match ParseExpression f s2 with
    | ParseResult.ok e s3 => ParseResult.ok ⟨proto, e⟩ s3
    | ParseResult.err m => ParseResult.err m
    | ParseResult.out => ParseResult.out
  | ParseResult.err m => ParseResult.err m
  | ParseResult.out => ParseResult.out

/-- Function ParseExtern of the source (main.cpp:360-363): eat `extern`, parse a
prototype. -/
def ParseExternDecl (s : PState) : ParseResult PrototypeAST :=
  ParsePrototype (advance s)

/-- Function `ParseTopLevelExpr` (main.cpp:366-373): parse one expression and wrap
it in an anonymous prototype (empty name, no parameters). -/
def ParseTopLevelExpr (f : Nat) (s : PState) : ParseResult FunctionAST :=
  match ParseExpression f s with
  | ParseResult.ok e s1 => ParseResult.ok ⟨⟨"", []⟩, e⟩ s1
  | ParseResult.err m => ParseResult.err m
  | ParseResult.out => ParseResult.out

/-- Lex a string and parse it as a single expression, with fuel beyond
the token count. -/
def parseExprString (str : String) : ParseResult ExprAST :=
  ParseExpression ((lexString str).length + 1) (initState (lexString str))

/-! ### Character-class facts -/

theorem isalpha_not_isspace {c : Char} (h : isalpha c = true) : isspace c = false := by
  simp only [isalpha, Bool.or_eq_true, Bool.and_eq_true, decide_eq_true_eq] at h
  simp only [isspace, Bool.or_eq_false_iff, Bool.and_eq_false_iff, decide_eq_false_iff_not]
  omega

theorem isdigit_not_isspace {c : Char} (h : isdigit c = true) : isspace c = false := by
  simp only [isdigit, Bool.and_eq_true, decide_eq_true_eq] at h
  simp only [isspace, Bool.or_eq_false_iff, Bool.and_eq_false_iff, decide_eq_false_iff_not]
  omega

theorem isalpha_not_isdigit {c : Char} (h : isalpha c = true) : isdigit c = false := by
  simp only [isalpha, Bool.or_eq_true, Bool.and_eq_true, decide_eq_true_eq] at h
  simp only [isdigit, Bool.and_eq_false_iff, decide_eq_false_iff_not]
  omega

/-! ### The identifier path of the lexer (claim C2) -/

theorem readIdent_eq (inp : List Char) (acc : String) :
    readIdent acc inp =
      (String.mk (acc.data ++ inp.takeWhile isalnum),
       (stateOf (inp.dropWhile isalnum)).1, (stateOf (inp.dropWhile isalnum)).2) := by
  induction inp generalizing acc with
  | nil =>
    rw [List.takeWhile_nil, List.dropWhile_nil, List.append_nil]
    rfl
  | cons d rest ih =>
    by_cases h : isalnum d
    · rw [List.takeWhile_cons_of_pos h, List.dropWhile_cons_of_pos h]
      have hstep : readIdent acc (d :: rest) = readIdent (acc.push d) rest := by
        simp [readIdent, h]
      rw [hstep, ih (acc.push d), String.data_push]
      simp
    · have hb : isalnum d = false := by simpa using h
      rw [List.takeWhile_cons_of_neg (by simp [hb]), List.dropWhile_cons_of_neg (by simp [hb]),
        List.append_nil]
      simp [readIdent, hb, stateOf]

theorem skipSpaces_not_space {c : Char} (inp : List Char) (h : isspace c = false) :
    skipSpaces (some c) inp = (some c, inp) := by
  simp [skipSpaces, h]

/-- Claim C2: starting at an ASCII letter, the lexer greedily consumes
the whole maximal alphanumeric run; the run `def` gives the `def` keyword
token, the run `extern` gives the `extern` keyword token, any other run
gives an identifier token carrying exactly the run's text; the
terminating character is retained as the new lookahead (with the rest of
the input untouched), not consumed twice. -/
theorem claim_C2 :
    ∀ (fuel : Nat) (c : Char) (inp : List Char), isalpha c = true →
      gettok (fuel+1) (some c) inp =
        (if String.mk (c :: inp.takeWhile isalnum) = "def" then
          (Token.tok_def, (stateOf (inp.dropWhile isalnum)).1,
            (stateOf (inp.dropWhile isalnum)).2)
        else if String.mk (c :: inp.takeWhile isalnum) = "extern" then
          (Token.tok_externKw, (stateOf (inp.dropWhile isalnum)).1,
            (stateOf (inp.dropWhile isalnum)).2)
        else
          (Token.tok_identifier (String.mk (c :: inp.takeWhile isalnum)),
            (stateOf (inp.dropWhile isalnum)).1, (stateOf (inp.dropWhile isalnum)).2)) := by
  intro fuel c inp h
  show gettokBody (gettok fuel) (skipSpaces (some c) inp) = _
  rw [skipSpaces_not_space inp (isalpha_not_isspace h)]
  show (if isalpha c then _ else _) = _
  rw [if_pos h, readIdent_eq]
  rfl

/-- Witness for C2: from lookahead `d` with remaining input `ef x`, the
maximal run is `def`, emitted as the keyword token, with the space as the
retained lookahead and `x` unread. -/
theorem claim_C2_witness :
    isalpha 'd' = true ∧
    gettok 1 (some 'd') ("ef x".data) = (Token.tok_def, some ' ', ['x']) :=
  ⟨by decide, (claim_C2 0 'd' ("ef x".data) (by decide)).trans (by decide)⟩

/-! ### Facts about the precedence map (claims C3, C10) -/

theorem mapFind_append (m : List (Char × Int)) (k : Char) (v0 : Int) (c : Char) :
    mapFind (m ++ [(k, v0)]) c =
      match mapFind m c with
      | some v => some v
      | none => if k = c then some v0 else none := by
  induction m with
  | nil => rfl
  | cons p rest ih =>
    obtain ⟨a, b⟩ := p
    by_cases h : a = c
    · simp [mapFind, h]
    · simp [mapFind, h, ih]

theorem lookupDef_step (t : Token) (m : List (Char × Int)) (c : Char) :
    lookupDef (GetTokPrecedenceST t m).2 c = lookupDef m c := by
  cases t with
  | tok_char c2 =>
    by_cases ha : isascii c2
    · cases hf : mapFind m c2 with
      | some v => simp [GetTokPrecedenceST, mapIndex, ha, hf]
      | none =>
        simp only [GetTokPrecedenceST, mapIndex, ha, hf, if_true, lookupDef, mapFind_append]
        cases hfc : mapFind m c with
        | some w => simp [hfc]
        | none => simp [hfc]; split <;> rfl
    · simp [GetTokPrecedenceST, ha]
  | tok_eof => rfl
  | tok_def => rfl
  | tok_externKw => rfl
  | tok_identifier s => rfl
  | tok_number s => rfl

theorem getTokPrecST_fst (t : Token) (m : List (Char × Int)) :
    (GetTokPrecedenceST t m).1 =
      match t with
      | Token.tok_char c =>
        if isascii c then (if lookupDef m c ≤ 0 then -1 else lookupDef m c) else -1
      | _ => -1 := by
  cases t with
  | tok_char c =>
    by_cases ha : isascii c
    · cases hf : mapFind m c with
      | some v => simp [GetTokPrecedenceST, mapIndex, ha, hf, lookupDef]
      | none => simp [GetTokPrecedenceST, mapIndex, ha, hf, lookupDef]
    · simp [GetTokPrecedenceST, ha]
  | tok_eof => rfl
  | tok_def => rfl
  | tok_externKw => rfl
  | tok_identifier s => rfl
  | tok_number s => rfl

theorem runLookups_lookupDef (calls : List Token) (m : List (Char × Int)) (c : Char) :
    lookupDef (runLookups calls m) c = lookupDef m c := by
  induction calls generalizing m with
  | nil => rfl
  | cons t ts ih => rw [runLookups, ih, lookupDef_step]

theorem mapFind_step_some (t : Token) (m : List (Char × Int)) (c : Char) (v : Int)
    (h : mapFind m c = some v) : mapFind (GetTokPrecedenceST t m).2 c = some v := by
  cases t with
  | tok_char c2 =>
    by_cases ha : isascii c2
    · cases hf : mapFind m c2 with
      | some w => simpa [GetTokPrecedenceST, mapIndex, ha, hf] using h
      | none => simp [GetTokPrecedenceST, mapIndex, ha, hf, mapFind_append, h]
    · simpa [GetTokPrecedenceST, ha] using h
  | tok_eof => exact h
  | tok_def => exact h
  | tok_externKw => exact h
  | tok_identifier s => exact h
  | tok_number s => exact h

theorem runLookups_some (calls : List Token) (m : List (Char × Int)) (c : Char) (v : Int)
    (h : mapFind m c = some v) : mapFind (runLookups calls m) c = some v := by
  induction calls generalizing m with
  | nil => exact h
  | cons t ts ih => exact ih _ (mapFind_step_some t m c v h)

/-- Claim C10: although `operator[]` default-inserts a zero entry for an
ASCII character that is absent from `BinopPrecedence`, the value returned
by the precedence lookup for every token is the same after any sequence
of prior lookups, and the entries for the five real operators are never
changed by any lookup. -/
theorem claim_C10 :
    (∀ (calls : List Token) (t : Token),
      (GetTokPrecedenceST t (runLookups calls BinopPrecedence)).1 =
        (GetTokPrecedenceST t BinopPrecedence).1) ∧
    (∀ (calls : List Token) (c : Char), c ∈ (['<', '+', '-', '*', '/'] : List Char) →
      mapFind (runLookups calls BinopPrecedence) c = mapFind BinopPrecedence c) := by
  constructor
  · intro calls t
    rw [getTokPrecST_fst, getTokPrecST_fst]
    cases t with
    | tok_char c => simp only [runLookups_lookupDef]
    | tok_eof => rfl
    | tok_def => rfl
    | tok_externKw => rfl
    | tok_identifier s => rfl
    | tok_number s => rfl
  · intro calls c hc
    fin_cases hc
    · exact runLookups_some calls _ _ 10 rfl
    · exact runLookups_some calls _ _ 20 rfl
    · exact runLookups_some calls _ _ 20 rfl
    · exact runLookups_some calls _ _ 40 rfl
    · exact runLookups_some calls _ _ 40 rfl

/-- Witness for C10 at a concrete call sequence and character. -/
theorem claim_C10_witness :
    mapFind (runLookups [Token.tok_char '%', Token.tok_char '+', Token.tok_eof]
        BinopPrecedence) '+' = mapFind BinopPrecedence '+' :=
  claim_C10.2 [Token.tok_char '%', Token.tok_char '+', Token.tok_eof] '+' (by decide)

/-- Claim C3: the pending-operator precedence lookup returns 10 for `<`,
20 for `+`, 20 for `-`, 40 for `*`, 40 for `/`, and -1 for every other
token value (non-ASCII token codes and ASCII characters not in the
table). -/
theorem claim_C3 :
    GetTokPrecedence (Token.tok_char '<') = 10 ∧
    GetTokPrecedence (Token.tok_char '+') = 20 ∧
    GetTokPrecedence (Token.tok_char '-') = 20 ∧
    GetTokPrecedence (Token.tok_char '*') = 40 ∧
    GetTokPrecedence (Token.tok_char '/') = 40 ∧
    ∀ t : Token,
      t ∉ ([Token.tok_char '<', Token.tok_char '+', Token.tok_char '-',
            Token.tok_char '*', Token.tok_char '/'] : List Token) →
      GetTokPrecedence t = -1 := by
  refine ⟨rfl, rfl, rfl, rfl, rfl, ?_⟩
  intro t ht
  rw [GetTokPrecedence, getTokPrecST_fst]
  cases t with
  | tok_char c =>
    simp only [List.mem_cons, List.not_mem_nil, or_false, Token.tok_char.injEq] at ht
    push_neg at ht
    obtain ⟨h1, h2, h3, h4, h5⟩ := ht
    have hfind : mapFind BinopPrecedence c = none := by
      simp [mapFind, BinopPrecedence, Ne.symm h1, Ne.symm h2, Ne.symm h3, Ne.symm h4,
        Ne.symm h5]
    by_cases ha : isascii c
    · simp [ha, lookupDef, hfind]
    · simp [ha]
  | tok_eof => rfl
  | tok_def => rfl
  | tok_externKw => rfl
  | tok_identifier s => rfl
  | tok_number s => rfl

/-- Witness for C3's universally quantified part at a token outside the
table. -/
theorem claim_C3_witness : GetTokPrecedence (Token.tok_char '%') = -1 :=
  claim_C3.2.2.2.2.2 (Token.tok_char '%') (by decide)

/-! ### Claims about concrete parses and error propagation -/

/-- Claim C1: binary operators are resolved by precedence climbing with
left associativity: `1+2*3` parses as `1+(2*3)`, `1-2-3` as `(1-2)-3`,
`1<2+3` as `1<(2+3)`; and for any two table operators, the trailing
operator is absorbed into the right-hand side exactly when its precedence
is strictly greater than the first operator's, otherwise (equal or lower
precedence) grouping is to the left. -/
theorem claim_C1 :
    (parseExprString "1+2*3" =
      ParseResult.ok (ExprAST.Binary '+' (ExprAST.Number "1")
        (ExprAST.Binary '*' (ExprAST.Number "2") (ExprAST.Number "3"))) ⟨Token.tok_eof, []⟩) ∧
    (parseExprString "1-2-3" =
      ParseResult.ok (ExprAST.Binary '-'
        (ExprAST.Binary '-' (ExprAST.Number "1") (ExprAST.Number "2"))
        (ExprAST.Number "3")) ⟨Token.tok_eof, []⟩) ∧
    (parseExprString "1<2+3" =
      ParseResult.ok (ExprAST.Binary '<' (ExprAST.Number "1")
        (ExprAST.Binary '+' (ExprAST.Number "2") (ExprAST.Number "3"))) ⟨Token.tok_eof, []⟩) ∧
    (∀ (x y z : String) (o1 o2 : Char),
      o1 ∈ (['<', '+', '-', '*', '/'] : List Char) →
      o2 ∈ (['<', '+', '-', '*', '/'] : List Char) →
      ParseExpression 8 (initState [Token.tok_number x, Token.tok_char o1,
          Token.tok_number y, Token.tok_char o2, Token.tok_number z]) =
        (if GetTokPrecedence (Token.tok_char o1) < GetTokPrecedence (Token.tok_char o2) then
          ParseResult.ok (ExprAST.Binary o1 (ExprAST.Number x)
            (ExprAST.Binary o2 (ExprAST.Number y) (ExprAST.Number z))) ⟨Token.tok_eof, []⟩
        else
          ParseResult.ok (ExprAST.Binary o2
            (ExprAST.Binary o1 (ExprAST.Number x) (ExprAST.Number y))
            (ExprAST.Number z)) ⟨Token.tok_eof, []⟩)) := by
  refine ⟨rfl, rfl, rfl, ?_⟩
  intro x y z o1 o2 h1 h2
  fin_cases h1 <;> fin_cases h2 <;> rfl

/-- Witness for C1's schematic part: `+` then `*` (strictly greater
precedence) absorbs to the right. -/
theorem claim_C1_witness :
    ParseExpression 8 (initState [Token.tok_number "1", Token.tok_char '+',
        Token.tok_number "2", Token.tok_char '*', Token.tok_number "3"]) =
      ParseResult.ok (ExprAST.Binary '+' (ExprAST.Number "1")
        (ExprAST.Binary '*' (ExprAST.Number "2") (ExprAST.Number "3"))) ⟨Token.tok_eof, []⟩ :=
  (claim_C1.2.2.2 "1" "2" "3" '+' '*' (by decide) (by decide)).trans rfl

/-- Claim C4: parsing an identifier followed by `(` yields a Call node
whose callee is that identifier with arguments in encounter order;
`foo(1,2,3)` gives three arguments in order, `foo()` gives zero, and
`foo(1,2` (end of input where `)` or `,` was required) fails with the
argument-list error and produces no node. -/
theorem claim_C4 :
    (∀ (nm x y z : String),
      ParseExpression 12 (initState [Token.tok_identifier nm, Token.tok_char '(',
          Token.tok_number x, Token.tok_char ',', Token.tok_number y, Token.tok_char ',',
          Token.tok_number z, Token.tok_char ')']) =
        ParseResult.ok (ExprAST.Call nm [ExprAST.Number x, ExprAST.Number y, ExprAST.Number z])
          ⟨Token.tok_eof, []⟩) ∧
    (parseExprString "foo(1,2,3)" =
      ParseResult.ok (ExprAST.Call "foo"
        [ExprAST.Number "1", ExprAST.Number "2", ExprAST.Number "3"]) ⟨Token.tok_eof, []⟩) ∧
    (parseExprString "foo()" = ParseResult.ok (ExprAST.Call "foo" []) ⟨Token.tok_eof, []⟩) ∧
    (parseExprString "foo(1,2" = ParseResult.err ParseErr.expectedRParenOrCommaInArgs) :=
  ⟨fun _ _ _ _ => rfl, rfl, rfl, rfl⟩

/-- Claim C6 (error propagation): a failing prototype parse makes the
whole definition/extern fail with the same diagnostic and no node; a
failing body makes the definition fail; a failing expression makes the
top-level-expression entry fail; and concretely `def foo 1+1` fails with
the "Expected '(' in prototype" condition, yielding no Function. -/
theorem claim_C6 :
    (∀ (f : Nat) (s : PState) (m : ParseErr),
      ParsePrototype (advance s) = ParseResult.err m →
      ParseDefinition f s = ParseResult.err m) ∧
    (∀ (f : Nat) (s : PState) (p : PrototypeAST) (s2 : PState) (m : ParseErr),
      ParsePrototype (advance s) = ParseResult.ok p s2 →
      ParseExpression f s2 = ParseResult.err m →
      ParseDefinition f s = ParseResult.err m) ∧
    (∀ (s : PState) (m : ParseErr),
      ParsePrototype (advance s) = ParseResult.err m →
      ParseExternDecl s = ParseResult.err m) ∧
    (∀ (f : Nat) (s : PState) (m : ParseErr),
      ParseExpression f s = ParseResult.err m →
      ParseTopLevelExpr f s = ParseResult.err m) ∧
    (ParseDefinition 8 (initState (lexString "def foo 1+1")) =
      ParseResult.err ParseErr.expectedLParenInProto) := by
  refine ⟨?_, ?_, ?_, ?_, rfl⟩
  · intro f s m h
    simp [ParseDefinition, h]
  · intro f s p s2 m h1 h2
    simp [ParseDefinition, h1, h2]
  · intro s m h
    simpa [ParseExternDecl] using h
  · intro f s m h
    simp [ParseTopLevelExpr, h]

/-- Witness for C6 at the concrete malformed definition. -/
theorem claim_C6_witness :
    ParseDefinition 3 (initState (lexString "def foo 1+1")) =
      ParseResult.err ParseErr.expectedLParenInProto :=
  claim_C6.1 3 (initState (lexString "def foo 1+1")) ParseErr.expectedLParenInProto rfl

/-- Claim C7: a successfully parsed top-level expression is wrapped in a
Function whose Prototype has the empty string as name and an empty
parameter list, and whose body is the parsed expression. -/
theorem claim_C7 :
    ∀ (f : Nat) (s : PState) (e : ExprAST) (s1 : PState),
      ParseExpression f s = ParseResult.ok e s1 →
      ParseTopLevelExpr f s = ParseResult.ok ⟨⟨"", []⟩, e⟩ s1 := by
  intro f s e s1 h
  simp [ParseTopLevelExpr, h]

/-- Witness for C7 on the bare expression `1+1`. -/
theorem claim_C7_witness :
    ParseTopLevelExpr 4 (initState (lexString "1+1")) =
      ParseResult.ok ⟨⟨"", []⟩,
        ExprAST.Binary '+' (ExprAST.Number "1") (ExprAST.Number "1")⟩ ⟨Token.tok_eof, []⟩ :=
  claim_C7 4 (initState (lexString "1+1"))
    (ExprAST.Binary '+' (ExprAST.Number "1") (ExprAST.Number "1")) ⟨Token.tok_eof, []⟩ rfl

/-- Claim C8: the lexer is deterministic — its output is a pure function
of the remaining input plus the single lookahead character, so lexing the
same character stream from the same state twice gives the same token
sequence with the same payloads. -/
theorem claim_C8 :
    ∀ (fuel : Nat) (lc1 lc2 : Option Char) (inp1 inp2 : List Char),
      lc1 = lc2 → inp1 = inp2 →
      tokenize fuel lc1 inp1 = tokenize fuel lc2 inp2 := by
  intro fuel lc1 lc2 inp1 inp2 h1 h2
  rw [h1, h2]

/-- Witness for C8 at a concrete stream. -/
theorem claim_C8_witness :
    tokenize 6 (some ' ') ("a b".data) = tokenize 6 (some ' ') ("a b".data) :=
  claim_C8 6 (some ' ') (some ' ') ("a b".data) ("a b".data) rfl rfl

/-! ### Fuel-independence of the lexer and separator absorption
(towards claim C5) -/

theorem String_mk_data (s : String) : String.mk s.data = s := rfl

theorem isspace_not_isalnum {c : Char} (h : isspace c = true) : isalnum c = false := by
  simp only [isspace, Bool.or_eq_true, Bool.and_eq_true, decide_eq_true_eq] at h
  simp only [isalnum, isalpha, isdigit, Bool.or_eq_false_iff, Bool.and_eq_false_iff,
    decide_eq_false_iff_not]
  omega

theorem isspace_not_numStart {c : Char} (h : isspace c = true) :
    (isdigit c || c = '.') = false := by
  have h1 : isdigit c = false := by
    simp only [isspace, Bool.or_eq_true, Bool.and_eq_true, decide_eq_true_eq] at h
    simp only [isdigit, Bool.and_eq_false_iff, decide_eq_false_iff_not]
    omega
  have h2 : ¬ c = '.' := by
    intro hc
    rw [hc] at h
    exact absurd h (by decide)
  simp [h1, h2]

theorem stateOf_snd_le (l : List Char) : (stateOf l).2.length ≤ l.length := by
  cases l with
  | nil => exact Nat.le_refl _
  | cons c cs => exact Nat.le_succ _

theorem skipSpacesAux_length (inp : List Char) :
    (skipSpacesAux inp).2.length ≤ inp.length := by
  induction inp with
  | nil => exact Nat.le_refl _
  | cons d rest ih =>
    by_cases h : isspace d = true
    · simp only [skipSpacesAux, h, if_true]
      exact Nat.le_trans ih (Nat.le_succ _)
    · simp only [skipSpacesAux, h, if_false]
      exact Nat.le_succ _

theorem skipSpaces_length (lc : Option Char) (inp : List Char) :
    (skipSpaces lc inp).2.length ≤ inp.length := by
  cases lc with
  | none => exact Nat.le_refl _
  | some c =>
    by_cases h : isspace c = true
    · simp only [skipSpaces, h, if_true]
      exact skipSpacesAux_length inp
    · simp only [skipSpaces, h, if_false]
      exact Nat.le_refl _

theorem skipComment_some_lt :
    ∀ (inp : List Char) (c2 : Char) (inp2 : List Char),
      skipComment inp = (some c2, inp2) → inp2.length < inp.length := by
  intro inp
  induction inp with
  | nil =>
    intro c2 inp2 h
    simp [skipComment] at h
  | cons d rest ih =>
    intro c2 inp2 h
    by_cases hd : (d = '\n' || d = '\r') = true
    · simp only [skipComment, hd, if_true] at h
      injection h with h1 h2
      rw [← h2]
      exact Nat.lt_succ_self _
    · simp only [skipComment, hd, if_false] at h
      exact Nat.lt_trans (ih c2 inp2 h) (Nat.lt_succ_self _)

theorem gettokBody_congr (go1 go2 : Option Char → List Char → Token × Option Char × List Char)
    (lc : Option Char) (inp : List Char)
    (hgo : ∀ c2 inp2, skipComment inp = (some c2, inp2) →
      go1 (some c2) inp2 = go2 (some c2) inp2) :
    gettokBody go1 (lc, inp) = gettokBody go2 (lc, inp) := by
  cases lc with
  | none => rfl
  | some c =>
    simp only [gettokBody]
    by_cases ha : isalpha c = true
    · simp [ha]
    · simp only [ha, Bool.false_eq_true, if_false]
      by_cases hd : (isdigit c || c = '.') = true
      · simp [hd]
      · simp only [hd, Bool.false_eq_true, if_false]
        by_cases hh : c = '#'
        · simp only [hh, if_true]
          rcases hsc : skipComment inp with ⟨o, rest2⟩
          cases o with
          | none => rfl
          | some c2 => exact hgo c2 rest2 hsc
        · simp [hh]

theorem gettok_fuel_irrel :
    ∀ (f g : Nat) (lc : Option Char) (inp : List Char),
      inp.length < f → inp.length < g → gettok f lc inp = gettok g lc inp := by
  intro f
  induction f using Nat.strong_induction_on with
  | _ f ih =>
    intro g lc inp hf hg
    cases f with
    | zero => omega
    | succ a =>
      cases g with
      | zero => omega
      | succ b =>
        show gettokBody (gettok a) (skipSpaces lc inp) =
          gettokBody (gettok b) (skipSpaces lc inp)
        rcases hsp : skipSpaces lc inp with ⟨lc1, inp1⟩
        have hlen1 : inp1.length ≤ inp.length := by
          simpa [hsp] using skipSpaces_length lc inp
        apply gettokBody_congr
        intro c2 inp2 hsc
        have h2 := skipComment_some_lt inp1 c2 inp2 hsc
        exact ih a (Nat.lt_succ_self a) b (some c2) inp2 (by omega) (by omega)

theorem gettok_eq_gettokAt (f : Nat) (l : List Char) (h : (stateOf l).2.length < f) :
    gettok f (stateOf l).1 (stateOf l).2 = gettokAt l :=
  gettok_fuel_irrel f ((stateOf l).2.length + 1) (stateOf l).1 (stateOf l).2 h
    (Nat.lt_succ_self _)

theorem gettok_cons_space (f : Nat) (c : Char) (inp : List Char) (h : isspace c = true) :
    gettok (f+1) (some c) inp = gettok (f+1) (stateOf inp).1 (stateOf inp).2 := by
  cases inp with
  | nil =>
    show gettokBody (gettok f) (skipSpaces (some c) []) =
      gettokBody (gettok f) (skipSpaces none [])
    simp [skipSpaces, skipSpacesAux, h]
  | cons d rest =>
    show gettokBody (gettok f) (skipSpaces (some c) (d :: rest)) =
      gettokBody (gettok f) (skipSpaces (some d) rest)
    simp [skipSpaces, skipSpacesAux, h]

theorem gettok_hash (f : Nat) (inp : List Char) :
    gettok (f+1) (some '#') inp =
      (match skipComment inp with
       | (some c2, inp2) => gettok f (some c2) inp2
       | (none, inp2) => (Token.tok_eof, none, inp2)) := by
  show gettokBody (gettok f) (skipSpaces (some '#') inp) = _
  rw [skipSpaces_not_space inp (by decide)]
  simp only [gettokBody]
  rw [if_neg (by decide), if_neg (by decide), if_pos trivial]

theorem skipComment_through :
    ∀ (mid : List Char) (nl : Char) (X : List Char),
      (∀ x ∈ mid, (x = '\n' ∨ x = '\r') → False) → (nl = '\n' ∨ nl = '\r') →
      skipComment (mid ++ nl :: X) = (some nl, X) := by
  intro mid
  induction mid with
  | nil =>
    intro nl X hmid hnl
    have hb : (nl = '\n' || nl = '\r') = true := by
      rcases hnl with rfl | rfl <;> decide
    simp [skipComment, hb]
  | cons d mid1 ih =>
    intro nl X hmid hnl
    have hd0 := hmid d (List.mem_cons_self d mid1)
    have hd : (d = '\n' || d = '\r') = false := by
      simp only [Bool.or_eq_false_iff, decide_eq_false_iff_not]
      exact ⟨fun hx => hd0 (Or.inl hx), fun hx => hd0 (Or.inr hx)⟩
    simp only [List.cons_append, skipComment, hd, Bool.false_eq_true, if_false]
    exact ih nl X (fun x hx => hmid x (List.mem_cons_of_mem d hx)) hnl

theorem skipComment_none :
    ∀ l : List Char, (∀ x ∈ l, (x = '\n' ∨ x = '\r') → False) →
      skipComment l = (none, []) := by
  intro l
  induction l with
  | nil => intro h; rfl
  | cons d rest ih =>
    intro h
    have hd0 := h d (List.mem_cons_self d rest)
    have hb : (d = '\n' || d = '\r') = false := by
      simp only [Bool.or_eq_false_iff, decide_eq_false_iff_not]
      exact ⟨fun hx => hd0 (Or.inl hx), fun hx => hd0 (Or.inr hx)⟩
    simp only [skipComment, hb, Bool.false_eq_true, if_false]
    exact ih (fun x hx => h x (List.mem_cons_of_mem d hx))

theorem sepScan_true_decomp :
    ∀ l : List Char, sepScan true l = true →
      ∃ mid nl rest2, l = mid ++ nl :: rest2 ∧
        (∀ x ∈ mid, (x = '\n' ∨ x = '\r') → False) ∧
        (nl = '\n' ∨ nl = '\r') ∧ sepScan false rest2 = true := by
  intro l
  induction l with
  | nil =>
    intro h
    exact absurd h (by decide)
  | cons d rest ih =>
    intro h
    by_cases hd : d = '\n' ∨ d = '\r'
    · refine ⟨[], d, rest, by simp, by simp, hd, ?_⟩
      have hb : (d = '\n' || d = '\r') = true := by
        rcases hd with rfl | rfl <;> decide
      simpa [sepScan, hb] using h
    · push_neg at hd
      have hb : (d = '\n' || d = '\r') = false := by simp [hd.1, hd.2]
      have h2 : sepScan true rest = true := by simpa [sepScan, hb] using h
      obtain ⟨mid, nl, rest2, heq, hmid, hnl, hs⟩ := ih h2
      refine ⟨d :: mid, nl, rest2, by simp [heq], ?_, hnl, hs⟩
      intro x hx hxnl
      rcases List.mem_cons.mp hx with rfl | hx2
      · rcases hxnl with hx | hx
        · exact hd.1 hx
        · exact hd.2 hx
      · exact hmid x hx2 hxnl

theorem finalScan_true_decomp :
    ∀ l : List Char, finalScan true l = true →
      (∀ x ∈ l, (x = '\n' ∨ x = '\r') → False) ∨
      ∃ mid nl rest2, l = mid ++ nl :: rest2 ∧
        (∀ x ∈ mid, (x = '\n' ∨ x = '\r') → False) ∧
        (nl = '\n' ∨ nl = '\r') ∧ finalScan false rest2 = true := by
  intro l
  induction l with
  | nil =>
    intro h
    exact Or.inl (fun x hx => absurd hx (List.not_mem_nil x))
  | cons d rest ih =>
    intro h
    by_cases hd : d = '\n' ∨ d = '\r'
    · refine Or.inr ⟨[], d, rest, by simp, by simp, hd, ?_⟩
      have hb : (d = '\n' || d = '\r') = true := by
        rcases hd with rfl | rfl <;> decide
      simpa [finalScan, hb] using h
    · push_neg at hd
      have hb : (d = '\n' || d = '\r') = false := by simp [hd.1, hd.2]
      have h2 : finalScan true rest = true := by simpa [finalScan, hb] using h
      rcases ih h2 with hall | ⟨mid, nl, rest2, heq, hmid, hnl, hs⟩
      · refine Or.inl ?_
        intro x hx hxnl
        rcases List.mem_cons.mp hx with rfl | hx2
        · rcases hxnl with hx | hx
          · exact hd.1 hx
          · exact hd.2 hx
        · exact hall x hx2 hxnl
      · refine Or.inr ⟨d :: mid, nl, rest2, by simp [heq], ?_, hnl, hs⟩
        intro x hx hxnl
        rcases List.mem_cons.mp hx with rfl | hx2
        · rcases hxnl with hx | hx
          · exact hd.1 hx
          · exact hd.2 hx
        · exact hmid x hx2 hxnl

theorem sepScan_finalScan :
    ∀ (l : List Char) (b : Bool), sepScan b l = true → finalScan b l = true := by
  intro l
  induction l with
  | nil =>
    intro b h
    cases b
    · rfl
    · exact absurd h (by decide)
  | cons d rest ih =>
    intro b h
    cases b
    · by_cases hs : isspace d = true
      · have h2 : sepScan false rest = true := by simpa [sepScan, hs] using h
        simpa [finalScan, hs] using ih false h2
      · by_cases hh : d = '#'
        · have h2 : sepScan true rest = true := by simpa [sepScan, hs, hh] using h
          simpa [finalScan, hs, hh] using ih true h2
        · exact absurd h (by simp [sepScan, hs, hh])
    · by_cases hb : (d = '\n' || d = '\r') = true
      · have h2 : sepScan false rest = true := by simpa [sepScan, hb] using h
        simpa [finalScan, hb] using ih false h2
      · have h2 : sepScan true rest = true := by
          simpa [sepScan, Bool.not_eq_true _ ▸ hb] using h
        simpa [finalScan, Bool.not_eq_true _ ▸ hb] using ih true h2

theorem gettokAt_sep_absorb :
    ∀ (n : Nat) (sep : List Char), sep.length ≤ n → SepChunk sep = true →
      ∀ rest : List Char, gettokAt (sep ++ rest) = gettokAt rest := by
  intro n
  induction n with
  | zero =>
    intro sep hlen hsep rest
    have hnil : sep = [] := List.eq_nil_of_length_eq_zero (Nat.le_zero.mp hlen)
    subst hnil
    rfl
  | succ n ih =>
    intro sep hlen hsep rest
    cases sep with
    | nil => rfl
    | cons c sep1 =>
      have hlen1 : sep1.length ≤ n := by
        simp only [List.length_cons] at hlen
        omega
      by_cases hsp : isspace c = true
      · have hchunk : SepChunk sep1 = true := by
          simpa [SepChunk, sepScan, hsp] using hsep
        have h1 : gettokAt ((c :: sep1) ++ rest) =
            gettok ((sep1 ++ rest).length + 1) (some c) (sep1 ++ rest) := rfl
        rw [h1, gettok_cons_space _ _ _ hsp,
          gettok_eq_gettokAt _ _ (Nat.lt_succ_of_le (stateOf_snd_le _))]
        exact ih sep1 hlen1 hchunk rest
      · have hc : c = '#' := by
          by_cases h2 : c = '#'
          · exact h2
          · exact absurd hsep (by simp [SepChunk, sepScan, hsp, h2])
        subst hc
        have hcm : sepScan true sep1 = true := by
          simpa [SepChunk, sepScan, hsp] using hsep
        obtain ⟨mid, nl, sep2, heq, hmid, hnl, hs2⟩ := sepScan_true_decomp sep1 hcm
        subst heq
        have h1 : gettokAt (('#' :: (mid ++ nl :: sep2)) ++ rest) =
            gettok (((mid ++ nl :: sep2) ++ rest).length + 1) (some '#')
              ((mid ++ nl :: sep2) ++ rest) := rfl
        rw [h1, gettok_hash]
        have hassoc : (mid ++ nl :: sep2) ++ rest = mid ++ nl :: (sep2 ++ rest) := by
          simp [List.append_assoc]
        rw [hassoc, skipComment_through mid nl (sep2 ++ rest) hmid hnl]
        show gettok ((mid ++ nl :: (sep2 ++ rest)).length) (some nl) (sep2 ++ rest) =
          gettokAt rest
        rw [gettok_fuel_irrel ((mid ++ nl :: (sep2 ++ rest)).length) ((sep2 ++ rest).length + 1)
          (some nl) (sep2 ++ rest) (by simp [List.length_append]; omega) (Nat.lt_succ_self _)]
        rw [gettok_cons_space _ _ _ (by rcases hnl with rfl | rfl <;> decide),
          gettok_eq_gettokAt _ _ (Nat.lt_succ_of_le (stateOf_snd_le _))]
        have hlen2 : sep2.length ≤ n := by
          simp only [List.length_append, List.length_cons] at hlen1
          omega
        exact ih sep2 hlen2 hs2 rest

theorem gettokAt_finalSep :
    ∀ (n : Nat) (l : List Char), l.length ≤ n → FinalSep l = true →
      (gettokAt l).1 = Token.tok_eof := by
  intro n
  induction n with
  | zero =>
    intro l hlen hsep
    have hnil : l = [] := List.eq_nil_of_length_eq_zero (Nat.le_zero.mp hlen)
    subst hnil
    rfl
  | succ n ih =>
    intro l hlen hsep
    cases l with
    | nil => rfl
    | cons c l1 =>
      have hlen1 : l1.length ≤ n := by
        simp only [List.length_cons] at hlen
        omega
      by_cases hsp : isspace c = true
      · have hfin : FinalSep l1 = true := by
          simpa [FinalSep, finalScan, hsp] using hsep
        have h1 : gettokAt (c :: l1) = gettok (l1.length + 1) (some c) l1 := rfl
        rw [h1, gettok_cons_space _ _ _ hsp,
          gettok_eq_gettokAt _ _ (Nat.lt_succ_of_le (stateOf_snd_le _))]
        exact ih l1 hlen1 hfin
      · have hc : c = '#' := by
          by_cases h2 : c = '#'
          · exact h2
          · exact absurd hsep (by simp [FinalSep, finalScan, hsp, h2])
        subst hc
        have hcm : finalScan true l1 = true := by
          simpa [FinalSep, finalScan, hsp] using hsep
        have h1 : gettokAt ('#' :: l1) = gettok (l1.length + 1) (some '#') l1 := rfl
        rw [h1, gettok_hash]
        rcases finalScan_true_decomp l1 hcm with hall | ⟨mid, nl, rest2, heq, hmid, hnl, hs2⟩
        · rw [skipComment_none l1 hall]
        · subst heq
          rw [skipComment_through mid nl rest2 hmid hnl]
          show (gettok ((mid ++ nl :: rest2).length) (some nl) rest2).1 = Token.tok_eof
          rw [gettok_fuel_irrel ((mid ++ nl :: rest2).length) (rest2.length + 1)
            (some nl) rest2 (by simp [List.length_append]; omega) (Nat.lt_succ_self _)]
          rw [gettok_cons_space _ _ _ (by rcases hnl with rfl | rfl <;> decide),
            gettok_eq_gettokAt _ _ (Nat.lt_succ_of_le (stateOf_snd_le _))]
          have hlen2 : rest2.length ≤ n := by
            simp only [List.length_append, List.length_cons] at hlen1
            omega
          exact ih rest2 hlen2 hs2

theorem numStart_not_isspace {c : Char} (h : (isdigit c || c = '.') = true) :
    isspace c = false := by
  have h0 : isdigit c = true ∨ c = '.' := by simpa using h
  rcases h0 with h1 | h1
  · exact isdigit_not_isspace h1
  · subst h1
    decide

theorem numStart_not_isalpha {c : Char} (h : (isdigit c || c = '.') = true) :
    isalpha c = false := by
  have h0 : isdigit c = true ∨ c = '.' := by simpa using h
  rcases h0 with h1 | h1
  · simp only [isdigit, Bool.and_eq_true, decide_eq_true_eq] at h1
    simp only [isalpha, Bool.or_eq_false_iff, Bool.and_eq_false_iff, decide_eq_false_iff_not]
    omega
  · subst h1
    decide

theorem readIdent_run :
    ∀ (l : List Char) (acc : String) (after : List Char),
      l.all isalnum = true → notAlnumHead after = true →
      readIdent acc (l ++ after) =
        (String.mk (acc.data ++ l), (stateOf after).1, (stateOf after).2) := by
  intro l
  induction l with
  | nil =>
    intro acc after _ hafter
    cases after with
    | nil => simp [readIdent, String_mk_data, stateOf]
    | cons d tl =>
      have hd : isalnum d = false := by simpa [notAlnumHead] using hafter
      simp [readIdent, hd, String_mk_data, stateOf]
  | cons e l1 ih =>
    intro acc after hall hafter
    obtain ⟨he, hl1⟩ : isalnum e = true ∧ l1.all isalnum = true := by
      simpa [List.all_cons] using hall
    have hstep : readIdent acc ((e :: l1) ++ after) = readIdent (acc.push e) (l1 ++ after) := by
      simp [readIdent, he]
    rw [hstep, ih (acc.push e) after hl1 hafter, String.data_push]
    simp

theorem readNumLoop_run :
    ∀ (l : List Char) (acc : String) (after : List Char),
      l.all (fun d => isdigit d || d = '.') = true → notNumHead after = true →
      readNumLoop acc (l ++ after) =
        (String.mk (acc.data ++ l), (stateOf after).1, (stateOf after).2) := by
  intro l
  induction l with
  | nil =>
    intro acc after _ hafter
    cases after with
    | nil => simp [readNumLoop, String_mk_data, stateOf]
    | cons d tl =>
      have hd : (isdigit d || d = '.') = false := by simpa [notNumHead] using hafter
      simp [readNumLoop, hd, String_mk_data, stateOf]
  | cons e l1 ih =>
    intro acc after hall hafter
    obtain ⟨he, hl1⟩ : (isdigit e || e = '.') = true ∧
        l1.all (fun d => isdigit d || d = '.') = true := by
      simpa [List.all_cons] using hall
    have hstep : readNumLoop acc ((e :: l1) ++ after) =
        readNumLoop (acc.push e) (l1 ++ after) := by
      simp [readNumLoop, he]
    rw [hstep, ih (acc.push e) after hl1 hafter, String.data_push]
    simp

theorem gettok_alpha_run (f : Nat) (c : Char) (cs after : List Char)
    (hc : isalpha c = true) (hcs : cs.all isalnum = true)
    (hafter : notAlnumHead after = true) :
    gettok (f+1) (some c) (cs ++ after) =
      (if (⟨c :: cs⟩ : String) = "def" then
        (Token.tok_def, (stateOf after).1, (stateOf after).2)
      else if (⟨c :: cs⟩ : String) = "extern" then
        (Token.tok_externKw, (stateOf after).1, (stateOf after).2)
      else
        (Token.tok_identifier ⟨c :: cs⟩, (stateOf after).1, (stateOf after).2)) := by
  show gettokBody (gettok f) (skipSpaces (some c) (cs ++ after)) = _
  rw [skipSpaces_not_space _ (isalpha_not_isspace hc)]
  simp only [gettokBody]
  rw [if_pos hc, readIdent_run cs (String.mk [c]) after hcs hafter]
  rfl

theorem gettok_num_run (f : Nat) (c : Char) (cs after : List Char)
    (hc : (isdigit c || c = '.') = true)
    (hcs : cs.all (fun d => isdigit d || d = '.') = true)
    (hafter : notNumHead after = true) :
    gettok (f+1) (some c) (cs ++ after) =
      (Token.tok_number ⟨c :: cs⟩, (stateOf after).1, (stateOf after).2) := by
  show gettokBody (gettok f) (skipSpaces (some c) (cs ++ after)) = _
  rw [skipSpaces_not_space _ (numStart_not_isspace hc)]
  simp only [gettokBody]
  rw [if_neg (by simp [numStart_not_isalpha hc]), if_pos hc,
    readNumLoop_run cs (String.mk [c]) after hcs hafter]
  rfl

theorem gettok_char_tok (f : Nat) (c : Char) (after : List Char)
    (h1 : isalpha c = false) (h2 : isdigit c = false) (h3 : ¬ c = '.')
    (h4 : isspace c = false) (h5 : ¬ c = '#') :
    gettok (f+1) (some c) after =
      (Token.tok_char c, (stateOf after).1, (stateOf after).2) := by
  show gettokBody (gettok f) (skipSpaces (some c) after) = _
  rw [skipSpaces_not_space _ h4]
  simp only [gettokBody]
  rw [if_neg (by simp [h1]), if_neg (by simp [h2, h3]), if_neg h5]
  cases after with
  | nil => rfl
  | cons d rest => rfl

theorem tokenOK_ne_eof {t : Token} (h : tokenOK t = true) : ¬ t = Token.tok_eof := by
  intro he
  subst he
  exact absurd h (by decide)

theorem tokenText_ne_nil {t : Token} (h : tokenOK t = true) : ¬ tokenText t = [] := by
  cases t with
  | tok_eof => exact absurd h (by decide)
  | tok_def => exact fun hx => List.noConfusion hx
  | tok_externKw => exact fun hx => List.noConfusion hx
  | tok_char c => exact fun hx => List.noConfusion hx
  | tok_identifier s =>
    intro hx
    have hx2 : s.data = [] := hx
    simp [tokenOK, hx2] at h
  | tok_number s =>
    intro hx
    have hx2 : s.data = [] := hx
    simp [tokenOK, hx2] at h

theorem gettokAt_token (t : Token) (after : List Char) (hok : tokenOK t = true)
    (hsep : headSeparates t after = true) :
    gettokAt (tokenText t ++ after) = (t, (stateOf after).1, (stateOf after).2) := by
  cases t with
  | tok_eof => exact absurd hok (by decide)
  | tok_def =>
    have h1 : gettokAt (tokenText Token.tok_def ++ after) =
        gettok ((['e', 'f'] ++ after).length + 1) (some 'd') (['e', 'f'] ++ after) := rfl
    rw [h1, gettok_alpha_run _ 'd' ['e', 'f'] after (by decide) (by decide) hsep, if_pos rfl]
  | tok_externKw =>
    have h1 : gettokAt (tokenText Token.tok_externKw ++ after) =
        gettok ((['x', 't', 'e', 'r', 'n'] ++ after).length + 1) (some 'e')
          (['x', 't', 'e', 'r', 'n'] ++ after) := rfl
    rw [h1, gettok_alpha_run _ 'e' ['x', 't', 'e', 'r', 'n'] after (by decide) (by decide) hsep,
      if_neg (by decide), if_pos rfl]
  | tok_identifier s =>
    rcases hd : s.data with _ | ⟨c, cs⟩
    · simp [tokenOK, hd] at hok
    · have hs_eq : (⟨c :: cs⟩ : String) = s := by
        rw [← hd]
      have hok2 := hok
      simp only [tokenOK, hd, Bool.and_eq_true, Bool.not_eq_true',
        decide_eq_false_iff_not] at hok2
      obtain ⟨⟨⟨hc, hcs⟩, hdef⟩, hext⟩ := hok2
      have h1 : gettokAt (tokenText (Token.tok_identifier s) ++ after) =
          gettok ((cs ++ after).length + 1) (some c) (cs ++ after) := by
        show gettokAt (s.data ++ after) = _
        rw [hd]
        rfl
      rw [h1, gettok_alpha_run _ c cs after hc hcs hsep, hs_eq, if_neg hdef, if_neg hext]
  | tok_number s =>
    rcases hd : s.data with _ | ⟨c, cs⟩
    · simp [tokenOK, hd] at hok
    · have hs_eq : (⟨c :: cs⟩ : String) = s := by
        rw [← hd]
      have hok2 := hok
      simp only [tokenOK, hd, Bool.and_eq_true] at hok2
      obtain ⟨hc, hcs⟩ := hok2
      have h1 : gettokAt (tokenText (Token.tok_number s) ++ after) =
          gettok ((cs ++ after).length + 1) (some c) (cs ++ after) := by
        show gettokAt (s.data ++ after) = _
        rw [hd]
        rfl
      rw [h1, gettok_num_run _ c cs after hc hcs hsep, hs_eq]
  | tok_char c =>
    have hok2 := hok
    simp only [tokenOK, Bool.and_eq_true, Bool.not_eq_true',
      decide_eq_false_iff_not] at hok2
    obtain ⟨⟨⟨⟨h1, h2⟩, h3⟩, h4⟩, h5⟩ := hok2
    have he : gettokAt (tokenText (Token.tok_char c) ++ after) =
        gettok (after.length + 1) (some c) after := rfl
    rw [he, gettok_char_tok _ c after h1 h2 h3 h4 h5]

theorem sepScan_cons_head {c : Char} {l : List Char} (h : sepScan false (c :: l) = true) :
    isspace c = true ∨ c = '#' := by
  by_cases hs : isspace c = true
  · exact Or.inl hs
  · by_cases hh : c = '#'
    · exact Or.inr hh
    · exact absurd h (by simp [sepScan, hs, hh])

theorem finalScan_cons_head {c : Char} {l : List Char} (h : finalScan false (c :: l) = true) :
    isspace c = true ∨ c = '#' := by
  by_cases hs : isspace c = true
  · exact Or.inl hs
  · by_cases hh : c = '#'
    · exact Or.inr hh
    · exact absurd h (by simp [finalScan, hs, hh])

theorem headSeparates_sep_cons (t : Token) (c : Char) (l : List Char)
    (h : isspace c = true ∨ c = '#') : headSeparates t (c :: l) = true := by
  have halnum : isalnum c = false := by
    rcases h with h | rfl
    · exact isspace_not_isalnum h
    · decide
  have hnum : (isdigit c || c = '.') = false := by
    rcases h with h | rfl
    · exact isspace_not_numStart h
    · decide
  cases t <;> simp [headSeparates, notAlnumHead, notNumHead, halnum, hnum]

theorem headSeparates_nil (t : Token) : headSeparates t [] = true := by
  cases t <;> rfl

theorem headSeparates_needSep (t t2 : Token) (l : List Char)
    (hok2 : tokenOK t2 = true) (hns : needSep t t2 = false) :
    headSeparates t (tokenText t2 ++ l) = true := by
  have htext := tokenText_ne_nil hok2
  rcases htx : tokenText t2 with _ | ⟨c, cs⟩
  · exact absurd htx htext
  · cases t with
    | tok_def =>
      simp only [needSep, htx] at hns
      simp [headSeparates, notAlnumHead, hns]
    | tok_externKw =>
      simp only [needSep, htx] at hns
      simp [headSeparates, notAlnumHead, hns]
    | tok_identifier s =>
      simp only [needSep, htx] at hns
      simp [headSeparates, notAlnumHead, hns]
    | tok_number s =>
      simp only [needSep, htx] at hns
      simp [headSeparates, notNumHead, hns]
    | tok_eof => rfl
    | tok_char c2 => rfl

theorem tokenize_stateOf (fuel : Nat) (l : List Char) :
    tokenize (fuel+1) (stateOf l).1 (stateOf l).2 =
      (match gettokAt l with
       | (Token.tok_eof, _, _) => []
       | (t, lc2, inp2) => t :: tokenize fuel lc2 inp2) := rfl

theorem tokenize_step_tok (fuel : Nat) (l : List Char) (t : Token) (a : Option Char)
    (b : List Char) (hg : gettokAt l = (t, a, b)) (hne : ¬ t = Token.tok_eof) :
    tokenize (fuel+1) (stateOf l).1 (stateOf l).2 = t :: tokenize fuel a b := by
  rw [tokenize_stateOf, hg]
  cases t <;> first | exact absurd rfl hne | rfl

theorem tokenize_step_eof (fuel : Nat) (l : List Char)
    (hg : (gettokAt l).1 = Token.tok_eof) :
    tokenize (fuel+1) (stateOf l).1 (stateOf l).2 = [] := by
  rw [tokenize_stateOf]
  rcases hx : gettokAt l with ⟨t1, a, b⟩
  rw [hx] at hg
  have ht : t1 = Token.tok_eof := hg
  subst ht
  rfl

/-- Main separator-invariance result: lexing any valid rendering of a
token list (tokens interleaved with whitespace/comment gaps) recovers
exactly that token list, independently of the gaps. -/
theorem tokenize_render :
    ∀ (items : List (Token × List Char)) (sep : List Char) (fuel : Nat),
      validItems items = true →
      (SepChunk sep = true ∨ (items = [] ∧ FinalSep sep = true)) →
      items.length < fuel →
      tokenize fuel (stateOf (sep ++ renderItems items)).1
          (stateOf (sep ++ renderItems items)).2 =
        items.map Prod.fst := by
  intro items
  induction items with
  | nil =>
    intro sep fuel _ hsep hf
    have hfin : FinalSep sep = true := by
      rcases hsep with h | ⟨_, h⟩
      · exact sepScan_finalScan sep false h
      · exact h
    cases fuel with
    | zero => simp at hf
    | succ fuel =>
      rw [show sep ++ renderItems [] = sep by simp [renderItems]]
      rw [tokenize_step_eof fuel sep (gettokAt_finalSep sep.length sep (Nat.le_refl _) hfin)]
      rfl
  | cons item rest ih =>
    obtain ⟨t, g⟩ := item
    intro sep fuel hvalid hsep hf
    have hchunk : SepChunk sep = true := by
      rcases hsep with h | ⟨habs, _⟩
      · exact h
      · exact List.noConfusion habs
    cases fuel with
    | zero => simp at hf
    | succ fuel =>
      cases rest with
      | nil =>
        simp only [validItems, Bool.and_eq_true] at hvalid
        obtain ⟨hok, hfing⟩ := hvalid
        simp only [renderItems, List.append_nil]
        have hsephead : headSeparates t g = true := by
          cases g with
          | nil => exact headSeparates_nil t
          | cons c g1 => exact headSeparates_sep_cons t c g1 (finalScan_cons_head hfing)
        have hg2 : gettokAt (sep ++ (tokenText t ++ g)) =
            (t, (stateOf g).1, (stateOf g).2) := by
          rw [gettokAt_sep_absorb sep.length sep (Nat.le_refl _) hchunk,
            gettokAt_token t g hok hsephead]
        rw [tokenize_step_tok fuel (sep ++ (tokenText t ++ g)) t _ _ hg2
          (tokenOK_ne_eof hok)]
        have hih := ih g fuel rfl (Or.inr ⟨rfl, hfing⟩) (by simp at hf ⊢; omega)
        simp only [renderItems, List.append_nil, List.map_nil] at hih
        rw [hih]
        simp
      | cons item2 rest2 =>
        obtain ⟨t2, g2⟩ := item2
        simp only [validItems, Bool.and_eq_true] at hvalid
        obtain ⟨hok, ⟨hg, hor⟩, hrest⟩ := hvalid
        have hvalid2 : validItems ((t2, g2) :: rest2) = true := by
          simp only [validItems, Bool.and_eq_true]
          exact hrest
        have hok2 : tokenOK t2 = true := hrest.1
        simp only [renderItems]
        have hsephead :
            headSeparates t (g ++ (tokenText t2 ++ (g2 ++ renderItems rest2))) = true := by
          cases g with
          | nil =>
            have hns : needSep t t2 = false := by simpa using hor
            have hh := headSeparates_needSep t t2 (g2 ++ renderItems rest2) hok2 hns
            simpa using hh
          | cons c g1 => exact headSeparates_sep_cons t c _ (sepScan_cons_head hg)
        have hg2 : gettokAt
              (sep ++ (tokenText t ++ (g ++ (tokenText t2 ++ (g2 ++ renderItems rest2))))) =
            (t, (stateOf (g ++ (tokenText t2 ++ (g2 ++ renderItems rest2)))).1,
             (stateOf (g ++ (tokenText t2 ++ (g2 ++ renderItems rest2)))).2) := by
          rw [gettokAt_sep_absorb sep.length sep (Nat.le_refl _) hchunk,
            gettokAt_token t _ hok hsephead]
        rw [tokenize_step_tok fuel
          (sep ++ (tokenText t ++ (g ++ (tokenText t2 ++ (g2 ++ renderItems rest2)))))
          t _ _ hg2 (tokenOK_ne_eof hok)]
        have hih := ih g fuel hvalid2 (Or.inl hg) (by simp at hf ⊢; omega)
        simp only [renderItems] at hih
        rw [hih]
        simp

/-- Claim C5, counterexample to the literal reading: `def x` and `defx`
differ only by removing the whitespace between the two tokens, yet they
lex to different token sequences (the keyword and identifier merge into
one identifier). -/
theorem claim_C5_counterexample :
    tokenize 10 (some ' ') ("def x".data) = [Token.tok_def, Token.tok_identifier "x"] ∧
    tokenize 10 (some ' ') ("defx".data) = [Token.tok_identifier "defx"] ∧
    ¬ tokenize 10 (some ' ') ("def x".data) = tokenize 10 (some ' ') ("defx".data) :=
  ⟨by decide, by decide, by decide⟩

/-- Claim C5 as amended: whitespace and `#`-to-end-of-line comments
between tokens are transparent — two character streams that render the
same token sequence with arbitrary valid separator material between
tokens (nonempty wherever the adjacent token texts would otherwise merge
into one run) lex to exactly the same token sequence, payloads
included. -/
theorem claim_C5 :
    ∀ (g0 g1 : List Char) (items1 items2 : List (Token × List Char)) (f1 f2 : Nat),
      SepChunk g0 = true → SepChunk g1 = true →
      validItems items1 = true → validItems items2 = true →
      items1.map Prod.fst = items2.map Prod.fst →
      items1.length < f1 → items2.length < f2 →
      tokenize f1 (some ' ') (g0 ++ renderItems items1) =
        tokenize f2 (some ' ') (g1 ++ renderItems items2) := by
  intro g0 g1 items1 items2 f1 f2 hg0 hg1 hv1 hv2 hmap hf1 hf2
  have h1 : tokenize f1 (some ' ') (g0 ++ renderItems items1) = items1.map Prod.fst :=
    tokenize_render items1 (' ' :: g0) f1 hv1 (Or.inl hg0) hf1
  have h2 : tokenize f2 (some ' ') (g1 ++ renderItems items2) = items2.map Prod.fst :=
    tokenize_render items2 (' ' :: g1) f2 hv2 (Or.inl hg1) hf2
  rw [h1, h2, hmap]

/-- Witness for C5: the same single number token rendered with no leading
separator versus two spaces of leading separator. -/
theorem claim_C5_witness :
    tokenize 2 (some ' ') ([] ++ renderItems [(Token.tok_number "1", [])]) =
      tokenize 2 (some ' ') ([' ', ' '] ++ renderItems [(Token.tok_number "1", [])]) :=
  claim_C5 [] [' ', ' '] [(Token.tok_number "1", [])] [(Token.tok_number "1", [])] 2 2
    (by decide) (by decide) (by decide) (by decide) rfl (by decide) (by decide)

/-! ### Token consumption by the parser (towards claim C9) -/

theorem tokWeight_le_one (t : Token) : tokWeight t ≤ 1 := by
  cases t <;> simp [tokWeight]

theorem tokWeight_of_ne {t : Token} (h : ¬ t = Token.tok_eof) : tokWeight t = 1 := by
  cases t <;> first | exact absurd rfl h | rfl

theorem countTokens_advance_le (s : PState) : countTokens (advance s) ≤ countTokens s := by
  obtain ⟨c, rest⟩ := s
  cases rest with
  | nil => exact Nat.zero_le _
  | cons t ts =>
    have h1 := tokWeight_le_one t
    have h2 : countTokens (advance ⟨c, t :: ts⟩) = ts.length + tokWeight t := rfl
    have h3 : countTokens ⟨c, t :: ts⟩ = ts.length + 1 + tokWeight c := rfl
    rw [h2, h3]
    omega

theorem countTokens_advance_lt (s : PState) (h : ¬ s.cur = Token.tok_eof) :
    countTokens (advance s) < countTokens s := by
  obtain ⟨c, rest⟩ := s
  have hc : tokWeight c = 1 := tokWeight_of_ne h
  cases rest with
  | nil =>
    have h2 : countTokens (advance ⟨c, []⟩) = 0 := rfl
    have h3 : countTokens ⟨c, []⟩ = 0 + tokWeight c := rfl
    rw [h2, h3, hc]
    omega
  | cons t ts =>
    have h1 := tokWeight_le_one t
    have h2 : countTokens (advance ⟨c, t :: ts⟩) = ts.length + tokWeight t := rfl
    have h3 : countTokens ⟨c, t :: ts⟩ = ts.length + 1 + tokWeight c := rfl
    rw [h2, h3, hc]
    omega

theorem parseArgsLoop_consume (pe : PState → ParseResult ExprAST)
    (hpe : ∀ s e s1, pe s = ParseResult.ok e s1 → countTokens s1 < countTokens s) :
    ∀ (g : Nat) (acc : List ExprAST) (s : PState) (args : List ExprAST) (s1 : PState),
      ParseArgsLoop pe g acc s = ParseResult.ok args s1 → countTokens s1 < countTokens s := by
  intro g
  induction g with
  | zero =>
    intro acc s args s1 h
    simp [ParseArgsLoop] at h
  | succ g ih =>
    intro acc s args s1 h
    simp only [ParseArgsLoop] at h
    split at h
    next arg s2 heq =>
      split at h
      · cases h
        exact hpe _ _ _ heq
      · have h1 := ih _ _ _ _ h
        have h2 := countTokens_advance_le s2
        have h3 := hpe _ _ _ heq
        omega
      · exact ParseResult.noConfusion h
    next m heq => exact ParseResult.noConfusion h
    next heq => exact ParseResult.noConfusion h

theorem parseParenExpr_consume (pe : PState → ParseResult ExprAST)
    (hpe : ∀ s e s1, pe s = ParseResult.ok e s1 → countTokens s1 < countTokens s)
    (s : PState) (e : ExprAST) (s1 : PState)
    (h : ParseParenExpr pe s = ParseResult.ok e s1) : countTokens s1 < countTokens s := by
  simp only [ParseParenExpr] at h
  split at h
  next v s2 heq =>
    split at h
    · cases h
      have h1 := hpe _ _ _ heq
      have h2 := countTokens_advance_le s2
      have h3 := countTokens_advance_le s
      omega
    · exact ParseResult.noConfusion h
  next m heq => exact ParseResult.noConfusion h
  next heq => exact ParseResult.noConfusion h

theorem parseIdentifierExpr_consume (pe : PState → ParseResult ExprAST)
    (hpe : ∀ s e s1, pe s = ParseResult.ok e s1 → countTokens s1 < countTokens s)
    (g : Nat) (s : PState) (e : ExprAST) (s1 : PState)
    (h : ParseIdentifierExpr pe g s = ParseResult.ok e s1) : countTokens s1 < countTokens s := by
  simp only [ParseIdentifierExpr] at h
  split at h
  next idName hcur =>
    have hne : ¬ s.cur = Token.tok_eof := by rw [hcur]; exact fun hx => Token.noConfusion hx
    have hadv := countTokens_advance_lt s hne
    split at h
    next hcur2 =>
      split at h
      next hcur3 =>
        cases h
        have h2 := countTokens_advance_le (advance (advance s))
        have h3 := countTokens_advance_le (advance s)
        omega
      next hcur3 =>
        split at h
        next args s3 heq =>
          cases h
          have h2 := parseArgsLoop_consume pe hpe g [] (advance (advance s)) args s3 heq
          have h3 := countTokens_advance_le s3
          have h4 := countTokens_advance_le (advance s)
          omega
        next m heq => exact ParseResult.noConfusion h
        next heq => exact ParseResult.noConfusion h
    next hcur2 =>
      cases h
      exact hadv
  next hcur => exact ParseResult.noConfusion h

theorem parsePrimary_consume (pe : PState → ParseResult ExprAST)
    (hpe : ∀ s e s1, pe s = ParseResult.ok e s1 → countTokens s1 < countTokens s)
    (g : Nat) (s : PState) (e : ExprAST) (s1 : PState)
    (h : ParsePrimary pe g s = ParseResult.ok e s1) : countTokens s1 < countTokens s := by
  simp only [ParsePrimary] at h
  split at h
  next v hcur => exact parseIdentifierExpr_consume pe hpe g s e s1 h
  next v hcur =>
    simp only [ParseNumberExpr] at h
    cases h
    exact countTokens_advance_lt s (by rw [hcur]; exact fun hx => Token.noConfusion hx)
  next hcur => exact parseParenExpr_consume pe hpe s e s1 h
  next hcur1 hcur2 hcur3 => exact ParseResult.noConfusion h

theorem parseBinOpRHS_consume (pp : PState → ParseResult ExprAST)
    (hpp : ∀ s e s1, pp s = ParseResult.ok e s1 → countTokens s1 < countTokens s) :
    ∀ (g : Nat) (p : Int) (lhs : ExprAST) (s : PState) (e : ExprAST) (s1 : PState),
      ParseBinOpRHS pp g p lhs s = ParseResult.ok e s1 → countTokens s1 ≤ countTokens s := by
  intro g
  induction g with
  | zero =>
    intro p lhs s e s1 h
    simp [ParseBinOpRHS] at h
  | succ g ih =>
    intro p lhs s e s1 h
    simp only [ParseBinOpRHS] at h
    split at h
    · cases h
      exact Nat.le_refl _
    · split at h
      next binOp hcur =>
        split at h
        next rhs s2 heq =>
          have hp := hpp _ _ _ heq
          have hadv := countTokens_advance_le s
          split at h
          · split at h
            next rhs2 s3 heq2 =>
              have h1 := ih _ _ _ _ _ heq2
              have h2 := ih _ _ _ _ _ h
              omega
            next m heq2 => exact ParseResult.noConfusion h
            next heq2 => exact ParseResult.noConfusion h
          · have h2 := ih _ _ _ _ _ h
            omega
        next m heq => exact ParseResult.noConfusion h
        next heq => exact ParseResult.noConfusion h
      next hcur =>
        cases h
        exact Nat.le_refl _

theorem parseExpression_consume :
    ∀ (f : Nat) (s : PState) (e : ExprAST) (s1 : PState),
      ParseExpression f s = ParseResult.ok e s1 → countTokens s1 < countTokens s := by
  intro f
  induction f with
  | zero =>
    intro s e s1 h
    simp [ParseExpression] at h
  | succ f ih =>
    intro s e s1 h
    simp only [ParseExpression] at h
    split at h
    next lhs s2 heq =>
      have h1 := parsePrimary_consume (ParseExpression f) ih f s lhs s2 heq
      have h2 := parseBinOpRHS_consume (ParsePrimary (ParseExpression f) f)
        (parsePrimary_consume (ParseExpression f) ih f) (f+1) 0 lhs s2 e s1 h
      omega
    next m heq => exact ParseResult.noConfusion h
    next heq => exact ParseResult.noConfusion h

/-! ### Fuel adequacy: the parser never exhausts fuel above the token
count (claim C9) -/

theorem parseArgsLoop_adequate (pe : PState → ParseResult ExprAST) (F : Nat)
    (had : ∀ s, countTokens s < F → ¬ pe s = ParseResult.out)
    (hcon : ∀ s e s1, pe s = ParseResult.ok e s1 → countTokens s1 < countTokens s) :
    ∀ (g : Nat) (acc : List ExprAST) (s : PState), countTokens s < g → countTokens s < F →
      ¬ ParseArgsLoop pe g acc s = ParseResult.out := by
  intro g
  induction g with
  | zero =>
    intro acc s hg hF
    omega
  | succ g ih =>
    intro acc s hg hF
    simp only [ParseArgsLoop]
    split
    next arg s2 heq =>
      split
      · exact fun hx => ParseResult.noConfusion hx
      · have h1 := hcon _ _ _ heq
        have h2 := countTokens_advance_le s2
        exact ih _ _ (by omega) (by omega)
      · exact fun hx => ParseResult.noConfusion hx
    next m heq => exact fun hx => ParseResult.noConfusion hx
    next heq => exact absurd heq (had s hF)

theorem parsePrimary_adequate (pe : PState → ParseResult ExprAST) (F : Nat)
    (had : ∀ s, countTokens s < F → ¬ pe s = ParseResult.out)
    (hcon : ∀ s e s1, pe s = ParseResult.ok e s1 → countTokens s1 < countTokens s) :
    ∀ s : PState, countTokens s ≤ F → ¬ ParsePrimary pe F s = ParseResult.out := by
  intro s hs
  simp only [ParsePrimary]
  split
  next v hcur =>
    have hne : ¬ s.cur = Token.tok_eof := by
      rw [hcur]
      exact fun hx => Token.noConfusion hx
    have hadv := countTokens_advance_lt s hne
    simp only [ParseIdentifierExpr]
    split
    next idName hcur2 =>
      split
      next hcur3 =>
        have hne2 : ¬ (advance s).cur = Token.tok_eof := by
          rw [hcur3]
          exact fun hx => Token.noConfusion hx
        have hadv2 := countTokens_advance_lt (advance s) hne2
        split
        next hcur4 => exact fun hx => ParseResult.noConfusion hx
        next hcur4 =>
          split
          next args s3 heq => exact fun hx => ParseResult.noConfusion hx
          next m heq => exact fun hx => ParseResult.noConfusion hx
          next heq =>
            exact absurd heq
              (parseArgsLoop_adequate pe F had hcon F [] (advance (advance s))
                (by omega) (by omega))
      next hcur3 => exact fun hx => ParseResult.noConfusion hx
    next hcur2 => exact fun hx => ParseResult.noConfusion hx
  next v hcur => exact fun hx => ParseResult.noConfusion hx
  next hcur =>
    have hne : ¬ s.cur = Token.tok_eof := by
      rw [hcur]
      exact fun hx => Token.noConfusion hx
    have hadv := countTokens_advance_lt s hne
    simp only [ParseParenExpr]
    split
    next v s2 heq =>
      split
      · exact fun hx => ParseResult.noConfusion hx
      · exact fun hx => ParseResult.noConfusion hx
    next m heq => exact fun hx => ParseResult.noConfusion hx
    next heq => exact absurd heq (had (advance s) (by omega))
  next h1 h2 h3 => exact fun hx => ParseResult.noConfusion hx

theorem parseBinOpRHS_adequate (pp : PState → ParseResult ExprAST) (F : Nat)
    (hpad : ∀ s, countTokens s ≤ F → ¬ pp s = ParseResult.out)
    (hpcon : ∀ s e s1, pp s = ParseResult.ok e s1 → countTokens s1 < countTokens s) :
    ∀ (g : Nat) (p : Int) (lhs : ExprAST) (s : PState),
      countTokens s < g → countTokens s ≤ F →
      ¬ ParseBinOpRHS pp g p lhs s = ParseResult.out := by
  intro g
  induction g with
  | zero =>
    intro p lhs s hg hF
    omega
  | succ g ih =>
    intro p lhs s hg hF
    simp only [ParseBinOpRHS]
    split
    · exact fun hx => ParseResult.noConfusion hx
    · split
      next binOp hcur =>
        have hne : ¬ s.cur = Token.tok_eof := by
          rw [hcur]
          exact fun hx => Token.noConfusion hx
        have hadv := countTokens_advance_lt s hne
        split
        next rhs s2 heq =>
          have hc2 := hpcon _ _ _ heq
          split
          · split
            next rhs2 s3 heq2 =>
              have hc3 := parseBinOpRHS_consume pp hpcon g _ _ _ _ _ heq2
              exact ih _ _ _ (by omega) (by omega)
            next m heq2 => exact fun hx => ParseResult.noConfusion hx
            next heq2 => exact absurd heq2 (ih _ _ _ (by omega) (by omega))
          · exact ih _ _ _ (by omega) (by omega)
        next m heq => exact fun hx => ParseResult.noConfusion hx
        next heq => exact absurd heq (hpad (advance s) (by omega))
      next hcur => exact fun hx => ParseResult.noConfusion hx

theorem parseExpression_adequate :
    ∀ (f : Nat) (s : PState), countTokens s < f → ¬ ParseExpression f s = ParseResult.out := by
  intro f
  induction f with
  | zero =>
    intro s h
    omega
  | succ f ih =>
    intro s h
    simp only [ParseExpression]
    split
    next lhs s1 heq =>
      have h1 := parsePrimary_consume (ParseExpression f) (parseExpression_consume f) f s lhs
        s1 heq
      exact parseBinOpRHS_adequate (ParsePrimary (ParseExpression f) f) f
        (parsePrimary_adequate (ParseExpression f) f ih (parseExpression_consume f))
        (parsePrimary_consume (ParseExpression f) (parseExpression_consume f) f)
        (f+1) 0 lhs s1 (by omega) (by omega)
    next m heq => exact fun hx => ParseResult.noConfusion hx
    next heq =>
      exact absurd heq
        (parsePrimary_adequate (ParseExpression f) f ih (parseExpression_consume f) s (by omega))

/-- Claim C9: expression parsing terminates on every finite token stream:
every successful parse strictly consumes tokens, and with any fuel
exceeding the number of remaining tokens, `ParseExpression` never reaches
the fuel-exhaustion result — each loop iteration and each recursive call
of the precedence-climbing parser operates on a strictly shorter
remaining token stream. -/
theorem claim_C9 :
    (∀ (f : Nat) (s : PState) (e : ExprAST) (s1 : PState),
      ParseExpression f s = ParseResult.ok e s1 → countTokens s1 < countTokens s) ∧
    (∀ (f : Nat) (s : PState), countTokens s < f → ¬ ParseExpression f s = ParseResult.out) :=
  ⟨parseExpression_consume, parseExpression_adequate⟩

/-- Witness for C9 at a concrete state: fuel 2 suffices for one number
token. -/
theorem claim_C9_witness :
    ¬ ParseExpression 2 (initState [Token.tok_number "1"]) = ParseResult.out :=
  claim_C9.2 2 (initState [Token.tok_number "1"]) (by decide)

end Kaleidoscope
